import Mathlib

/-!
Formal model of the agent control loop and text-protocol parser of the
`llm_agents` repository (file `src/llm_agents/agent.py`).

Strings are modelled as `List Char`.  Python string operations used by the
source (`in`, `split`, `strip`, `str.format`, `re.search` with the fixed
pattern of `Agent._parse`) are embedded as executable Lean functions.  The
`\s` character class and `str.strip()` are modelled over the six ASCII
whitespace characters Python always includes; the claims under scrutiny
involve only ASCII text.
-/

set_option autoImplicit false
set_option maxRecDepth 100000

namespace AgentModel

/-- Strings are lists of characters. -/
abbrev Str := List Char

/-- `beginsWith tok s` : `tok` is a prefix of `s` (literal match, as a regex
literal or Python `str.startswith` would test). -/
def beginsWith : Str → Str → Bool
  | [], _ => true
  | _ :: _, [] => false
  | c :: t, d :: u => c = d && beginsWith t u

/-- Python's substring test `tok in s`. -/
def containsTok (tok : Str) : Str → Bool
  | [] => tok.isEmpty
  | c :: rest => beginsWith tok (c :: rest) || containsTok tok rest

/-- The six ASCII characters matched by Python's `str.strip()` (no argument)
and by the regex class `\s`. -/
def pyIsSpace (c : Char) : Bool :=
  c = ' ' || c = '\t' || c = '\n' || c = '\r' || c = '\x0b' || c = '\x0c'

/-- Python `s.strip(chars)`: remove all leading and trailing characters
satisfying `p`. -/
def pyStrip (p : Char → Bool) (s : Str) : Str :=
  ((s.dropWhile p).reverse.dropWhile p).reverse

/-- Python `sep.join(l)`. -/
def joinSep (sep : Str) : List Str → Str
  | [] => []
  | [x] => x
  | x :: y :: rest => x ++ sep ++ joinSep sep (y :: rest)

/-- Fuelled worker for Python `s.split(sep)` (`sep` nonempty): scan left to
right, cutting at each non-overlapping occurrence of `sep`.  The fuel is the
length of the string, so the `0` case with a nonempty string is unreachable. -/
def pySplitF (sep : Str) : Nat → Str → List Str
  | _, [] => [[]]
  | 0, s => [s]
  | fuel + 1, c :: rest =>
    if beginsWith sep (c :: rest) then
      [] :: pySplitF sep fuel (rest.drop (sep.length - 1))
    else
      match pySplitF sep fuel rest with
      | [] => [[c]]
      | t :: ts => (c :: t) :: ts

/-- Python `s.split(sep)` for a nonempty separator. -/
def pySplit (sep s : Str) : List Str := pySplitF sep s.length s

/-- Python `l[-1]` on the (always nonempty) result of `split`. -/
def pyLast (l : List Str) : Str := l.getLastD []

/-! ### The literal tokens of `agent.py` -/

def FINAL_ANSWER_TOKEN : Str := "Final Answer:".data

def OBSERVATION_TOKEN : Str := "Observation:".data

def THOUGHT_TOKEN : Str := "Thought:".data

/-- The tag returned by `_parse` in the final-answer case (the string
`"Final Answer"`, without the colon). -/
def FINAL_ANSWER_TAG : Str := "Final Answer".data

/-- The literal `"Action: "` at the head of the regex of `_parse`. -/
def ACTION_TOKEN : Str := "Action: ".data

/-- The literal `"Action Input:"` inside the regex of `_parse`. -/
def ACTION_INPUT_TOKEN : Str := "Action Input:".data

/-! ### The regex `Action: [\[]?(.*?)[\]]?[\n]*Action Input:[\s]*(.*)`
with `re.DOTALL`, modelled step by step.

The lazy group `(.*?)` stops at the first position where the rest of the
pattern matches; the optional brackets and the greedy `[\n]*` are
deterministic against the literal `Action Input:` that follows them, so the
backtracking search collapses to the direct-style functions below. -/

/-- Match `[\n]*Action Input:` at the start of `u`; return the remainder
after the literal (i.e. the text from which group 2 starts). -/
def matchNlAI (u : Str) : Option Str :=
  if beginsWith ACTION_INPUT_TOKEN (u.dropWhile (fun c => c = '\n')) then
    some ((u.dropWhile (fun c => c = '\n')).drop ACTION_INPUT_TOKEN.length)
  else none

/-- Match `[\]]?[\n]*Action Input:` at the start of `u`.  When `u` starts
with `]` the greedy option consumes it; if the continuation then fails, the
empty alternative also fails (a `]` is neither `\n` nor `A`), so consuming
the bracket first is faithful to the backtracking engine. -/
def matchTail (u : Str) : Option Str :=
  match u with
  | ']' :: u' => matchNlAI u'
  | _ => matchNlAI u

/-- The lazy group `(.*?)` followed by `[\]]?[\n]*Action Input:` : scan for
the shortest prefix of `v` after which `matchTail` succeeds.  Returns
(group 1, remainder after `Action Input:`). -/
def lazyCapture : Str → Option (Str × Str)
  | [] =>
    match matchTail [] with
    | some rest => some ([], rest)
    | none => none
  | c :: v' =>
    match matchTail (c :: v') with
    | some rest => some ([], rest)
    | none =>
      match lazyCapture v' with
      | some (g1, rest) => some (c :: g1, rest)
      | none => none

/-- Try to match the whole pattern at the start of `s`: the literal
`Action: `, the optional `[` (greedy, deterministic: consuming a present `[`
never changes matchability, only shifts group 1), the lazy group, the tail,
then `[\s]*` (greedy) and group 2 `(.*)` to the end of the string.
Returns (group 1, group 2). -/
def stripLb (u : Str) : Str :=
  match u with
  | '[' :: u' => u'
  | _ => u

def tryActionAt (s : Str) : Option (Str × Str) :=
  if beginsWith ACTION_TOKEN s then
    match lazyCapture (stripLb (s.drop ACTION_TOKEN.length)) with
    | some (g1, rest) => some (g1, rest.dropWhile pyIsSpace)
    | none => none
  else none

/-- `re.search`: try the pattern at every position, leftmost match wins. -/
def searchAction : Str → Option (Str × Str)
  | [] => none
  | c :: rest =>
    match tryActionAt (c :: rest) with
    | some r => some r
    | none => searchAction rest

/-- `Agent._parse`.  On success the pair (tool, tool_input) of the source is
returned; the `ValueError` for unparsable output is modelled as `.error`
carrying the raw generated text (the source embeds that text in the
exception message). -/
def agentParse (generated : Str) : Except Str (Str × Str) :=
  if containsTok FINAL_ANSWER_TOKEN generated then
    .ok (FINAL_ANSWER_TAG, pyStrip pyIsSpace (pyLast (pySplit FINAL_ANSWER_TOKEN generated)))
  else
    match searchAction generated with
    | none => .error generated
    | some (g1, g2) =>
      .ok (pyStrip pyIsSpace g1, pyStrip (fun c => c = '"') (pyStrip (fun c => c = ' ') g2))

/-! ### Python `str.format`

`Agent.run` formats the template twice: once with the question and tool
catalog (keeping a literal `{previous_responses}` placeholder) and then once
per iteration with the joined transcript.  `str.format` raises on a bare
`{` or `}` and on an unknown field name; both failure modes are modelled as
`none`.  Only the simple `{name}` field form occurs in the template; other
field syntax (conversions, format specs, nested braces) also raises in
Python for the environments used here and is likewise sent to `none` by the
unknown-name lookup. -/

/-- Fuelled worker for `str.format` (fuel = string length, so the `0` case
with a nonempty string is unreachable). -/
def pyFormatF (env : Str → Option Str) : Nat → Str → Option Str
  | _, [] => some []
  | 0, _ :: _ => none
  | fuel + 1, c :: rest =>
    if c = '{' then
      match rest with
      | '{' :: rest2 => (pyFormatF env fuel rest2).map (fun o => '{' :: o)
      | _ =>
        match rest.dropWhile (fun d => d ≠ '}') with
        | '}' :: rest2 =>
          match env (rest.takeWhile (fun d => d ≠ '}')) with
          | some v => (pyFormatF env fuel rest2).map (fun o => v ++ o)
          | none => none
        | _ => none
    else if c = '}' then
      match rest with
      | '}' :: rest2 => (pyFormatF env fuel rest2).map (fun o => '}' :: o)
      | _ => none
    else (pyFormatF env fuel rest).map (fun o => c :: o)

/-- Python `s.format(**env)`, with format errors as `none`. -/
def pyFormat (s : Str) (env : Str → Option Str) : Option Str :=
  pyFormatF env s.length s

/-- Scanner deciding whether the field `{name}` occurs in a format string
(following exactly the case split of `pyFormatF`). -/
def hasFieldF (name : Str) : Nat → Str → Bool
  | _, [] => false
  | 0, _ :: _ => false
  | fuel + 1, c :: rest =>
    if c = '{' then
      match rest with
      | '{' :: rest2 => hasFieldF name fuel rest2
      | _ =>
        match rest.dropWhile (fun d => d ≠ '}') with
        | '}' :: rest2 =>
          (rest.takeWhile (fun d => d ≠ '}') == name) || hasFieldF name fuel rest2
        | _ => false
    else if c = '}' then
      match rest with
      | '}' :: rest2 => hasFieldF name fuel rest2
      | _ => false
    else hasFieldF name fuel rest

/-- `{name}` occurs as a field of the format string `s`. -/
def hasField (name s : Str) : Bool := hasFieldF name s.length s

/-! ### The agent -/

/-- The module-level `PROMPT_TEMPLATE` of `agent.py`, byte for byte
(including the trailing space after `tools: ` and the final newline). -/
def PROMPT_TEMPLATE : Str :=
  ("Today is {today} and you can use tools to get new information. Answer the question as best as you can using the following tools: \n\n{tool_description}\n\nUse the following format:\n\nQuestion: the input question you must answer\nThought: comment on what you want to do next\nAction: the action to take, exactly one element of [{tool_names}]\nAction Input: the input to the action\nObservation: the result of the action\n... (this Thought/Action/Action Input/Observation repeats N times, use it until you are sure of the answer)\nThought: I now know the final answer\nFinal Answer: your final answer to the original input question\n\nBegin!\n\nQuestion: {question}\nThought: {previous_responses}\n").data

/-- An apostrophe, written by code point to keep the source ASCII-clean. -/
def apos : Char := Char.ofNat 39

/-- The fixed fallback answer returned when the iteration budget is
exhausted: "I couldn't find a definitive answer within the allowed number
of steps." -/
def FALLBACK_ANSWER : Str :=
  "I couldn".data ++ apos :: "t find a definitive answer within the allowed number of steps.".data

/-- A tool: `name`, `description` and the `use` / `use_async` capabilities
(pure input-to-observation functions in this model). -/
structure Tool where
  name : Str
  description : Str
  use : Str → Str
  use_async : Str → Str

/-- The default `stop_pattern` of the `Agent` model class. -/
def DEFAULT_STOP_PATTERN : List Str :=
  ['\n' :: OBSERVATION_TOKEN, '\n' :: '\t' :: OBSERVATION_TOKEN]

/-- The agent configuration: the fields of the `Agent` pydantic model,
with the model capability as an oracle `llm call-index prompt stop`
(the call index resolves the external nondeterminism of successive calls
to a stateful LLM; a pure LLM ignores it). -/
structure AgentCfg where
  llm : Nat → Str → List Str → Str
  llm_async : Nat → Str → List Str → Str
  tools : List Tool
  prompt_template : Str
  max_loops : Nat
  stop_pattern : List Str
  today : Str

/-- The `tool_description` property: `"\n".join(f"{t.name}: {t.description}")`. -/
def tool_description (tools : List Tool) : Str :=
  joinSep "\n".data (tools.map (fun t => t.name ++ ": ".data ++ t.description))

/-- The `tool_names` property: `",".join(t.name)`. -/
def tool_names (tools : List Tool) : Str :=
  joinSep ",".data (tools.map Tool.name)

/-- The `tool_by_names` dict, as name lookup.  A Python dict comprehension
lets a later duplicate name override an earlier one, hence the search from
the rear. -/
def tool_by_names (tools : List Tool) (n : Str) : Option Tool :=
  tools.reverse.find? (fun t => t.name == n)

/-- One entry of `self.thinking`: the dict built per iteration, with the
optional `result` (final-answer branch) and `observation` (tool branch)
keys. -/
structure ThinkingStep where
  step : Nat
  thought : Str
  tool : Str
  tool_input : Str
  result : Option Str
  observation : Option Str
deriving DecidableEq

/-- The fatal failure modes of `run`: a `str.format` error, the
`ValueError` for unparsable LLM output (carrying the raw output), and the
`ValueError` for an unknown tool (carrying the tool name). -/
inductive RunError where
  | fmt : RunError
  | parseFailure : Str → RunError
  | unknownTool : Str → RunError
deriving DecidableEq

/-- Outcome of a run: either a returned answer or a fatal error, in both
cases together with the `self.thinking` list observable on the agent
afterwards. -/
inductive RunResult where
  | answer : Str → List ThinkingStep → RunResult
  | failure : RunError → List ThinkingStep → RunResult
deriving DecidableEq

/-- The keyword environment of the first `format` call in `run`: the date,
tool catalog and question are substituted, and `previous_responses` is
replaced by a literal `{previous_responses}` placeholder. -/
def initialEnv (cfg : AgentCfg) (question : Str) : Str → Option Str := fun n =>
  if n = "today".data then some cfg.today
  else if n = "tool_description".data then some (tool_description cfg.tools)
  else if n = "tool_names".data then some (tool_names cfg.tools)
  else if n = "question".data then some question
  else if n = "previous_responses".data then some "{previous_responses}".data
  else none

/-- The keyword environment of the per-iteration `format` call:
`previous_responses` is the newline-joined transcript. -/
def loopEnv (prevs : List Str) : Str → Option Str := fun n =>
  if n = "previous_responses".data then some (joinSep "\n".data prevs) else none

/-- A default `ThinkingStep`, for `getLastD`. -/
def emptyStep : ThinkingStep := ⟨0, [], [], [], none, none⟩

/-- The `while num_loops < max_loops` body of `Agent.run`, with
`fuel = max_loops - num_loops`: format the current prompt, call the model,
parse, and either return the final answer, fail on an unknown tool, or
invoke the tool, extend the transcript and recurse. -/
def runLoop (cfg : AgentCfg) (prompt : Str) :
    Nat → Nat → List Str → List ThinkingStep → RunResult
  | 0, _, _, thinking => .answer FALLBACK_ANSWER thinking
  | fuel + 1, num_loops, previous_responses, thinking =>
    match pyFormat prompt (loopEnv previous_responses) with
    | none => .failure .fmt thinking
    | some curr_prompt =>
      match agentParse (cfg.llm num_loops curr_prompt cfg.stop_pattern) with
      | .error raw => .failure (.parseFailure raw) thinking
      | .ok (tool, tool_input) =>
        if tool = FINAL_ANSWER_TAG then
          .answer tool_input
            (thinking ++ [⟨num_loops + 1, cfg.llm num_loops curr_prompt cfg.stop_pattern,
              tool, tool_input, some tool_input, none⟩])
        else
          match tool_by_names cfg.tools tool with
          | none => .failure (.unknownTool tool) thinking
          | some t =>
            runLoop cfg prompt fuel (num_loops + 1)
              (previous_responses ++ [cfg.llm num_loops curr_prompt cfg.stop_pattern ++ '\n' ::
                (OBSERVATION_TOKEN ++ ' ' :: (t.use tool_input ++ '\n' :: THOUGHT_TOKEN))])
              (thinking ++ [⟨num_loops + 1, cfg.llm num_loops curr_prompt cfg.stop_pattern,
                tool, tool_input, none, some (t.use tool_input)⟩])

/-- `Agent.run(question, max_iterations)`: reset `thinking`, format the
template (keeping the `previous_responses` placeholder), print the empty
rendering (whose format error, if any, is fatal), then loop. -/
def Agent.run (cfg : AgentCfg) (question : Str) (max_iterations : Option Nat) : RunResult :=
  match pyFormat cfg.prompt_template (initialEnv cfg question) with
  | none => .failure .fmt []
  | some prompt =>
    match pyFormat prompt (loopEnv []) with
    | none => .failure .fmt []
    | some _ => runLoop cfg prompt (max_iterations.getD cfg.max_loops) 0 [] []

/-- The body of `Agent.run_async`: a textual copy of `runLoop` that calls
the `llm_async` and `use_async` capabilities instead. -/
def runLoopAsync (cfg : AgentCfg) (prompt : Str) :
    Nat → Nat → List Str → List ThinkingStep → RunResult
  | 0, _, _, thinking => .answer FALLBACK_ANSWER thinking
  | fuel + 1, num_loops, previous_responses, thinking =>
    match pyFormat prompt (loopEnv previous_responses) with
    | none => .failure .fmt thinking
    | some curr_prompt =>
      match agentParse (cfg.llm_async num_loops curr_prompt cfg.stop_pattern) with
      | .error raw => .failure (.parseFailure raw) thinking
      | .ok (tool, tool_input) =>
        if tool = FINAL_ANSWER_TAG then
          .answer tool_input
            (thinking ++ [⟨num_loops + 1, cfg.llm_async num_loops curr_prompt cfg.stop_pattern,
              tool, tool_input, some tool_input, none⟩])
        else
          match tool_by_names cfg.tools tool with
          | none => .failure (.unknownTool tool) thinking
          | some t =>
            runLoopAsync cfg prompt fuel (num_loops + 1)
              (previous_responses ++ [cfg.llm_async num_loops curr_prompt cfg.stop_pattern ++ '\n' ::
                (OBSERVATION_TOKEN ++ ' ' :: (t.use_async tool_input ++ '\n' :: THOUGHT_TOKEN))])
              (thinking ++ [⟨num_loops + 1, cfg.llm_async num_loops curr_prompt cfg.stop_pattern,
                tool, tool_input, none, some (t.use_async tool_input)⟩])

/-- `Agent.run_async(question, max_iterations)`: a textual copy of
`Agent.run` over the suspending capabilities. -/
def Agent.runAsync (cfg : AgentCfg) (question : Str) (max_iterations : Option Nat) : RunResult :=
  match pyFormat cfg.prompt_template (initialEnv cfg question) with
  | none => .failure .fmt []
  | some prompt =>
    match pyFormat prompt (loopEnv []) with
    | none => .failure .fmt []
    | some _ => runLoopAsync cfg prompt (max_iterations.getD cfg.max_loops) 0 [] []

/-! ### Basic characterizations of the string primitives -/

theorem beginsWith_iff (t s : Str) : beginsWith t s = true ↔ ∃ u, s = t ++ u := by
  induction t generalizing s with
  | nil => simp [beginsWith]
  | cons c t ih =>
    cases s with
    | nil => simp [beginsWith]
    | cons d u =>
      simp only [beginsWith, Bool.and_eq_true, decide_eq_true_eq, ih]
      constructor
      · rintro ⟨rfl, v, rfl⟩
        exact ⟨v, rfl⟩
      · rintro ⟨v, hv⟩
        cases hv
        exact ⟨rfl, v, rfl⟩

theorem beginsWith_refl_append (t u : Str) : beginsWith t (t ++ u) = true :=
  (beginsWith_iff t (t ++ u)).mpr ⟨u, rfl⟩

theorem containsTok_iff (t s : Str) : containsTok t s = true ↔ ∃ x y, s = x ++ t ++ y := by
  induction s with
  | nil =>
    simp only [containsTok, List.isEmpty_iff]
    constructor
    · rintro rfl
      exact ⟨[], [], rfl⟩
    · rintro ⟨x, y, hxy⟩
      rcases List.append_eq_nil.mp hxy.symm with ⟨hxt, hy⟩
      rcases List.append_eq_nil.mp hxt with ⟨_, ht⟩
      exact ht
  | cons c rest ih =>
    simp only [containsTok, Bool.or_eq_true, beginsWith_iff, ih]
    constructor
    · rintro (⟨u, hu⟩ | ⟨x, y, hxy⟩)
      · exact ⟨[], u, by simp [hu]⟩
      · exact ⟨c :: x, y, by simp [hxy]⟩
    · rintro ⟨x, y, hxy⟩
      cases x with
      | nil => exact Or.inl ⟨y, by simpa using hxy⟩
      | cons d x' =>
        rw [List.cons_append, List.cons_append] at hxy
        injection hxy with h1 h2
        exact Or.inr ⟨x', y, h2⟩

theorem containsTok_append_left (t x s : Str) (h : containsTok t s = true) :
    containsTok t (x ++ s) = true := by
  rcases (containsTok_iff t s).mp h with ⟨u, v, rfl⟩
  exact (containsTok_iff t _).mpr ⟨x ++ u, v, by simp⟩

theorem containsTok_append_right (t s y : Str) (h : containsTok t s = true) :
    containsTok t (s ++ y) = true := by
  rcases (containsTok_iff t s).mp h with ⟨u, v, rfl⟩
  exact (containsTok_iff t _).mpr ⟨u, v ++ y, by simp⟩

theorem containsTok_of_decomp (t x y : Str) : containsTok t (x ++ t ++ y) = true :=
  (containsTok_iff t _).mpr ⟨x, y, rfl⟩

/-! ### Lemmas about `pySplit` -/

theorem pySplitF_ne_nil (sep : Str) (fuel : Nat) (s : Str) : pySplitF sep fuel s ≠ [] := by
  cases fuel with
  | zero => cases s <;> simp [pySplitF]
  | succ f =>
    cases s with
    | nil => simp [pySplitF]
    | cons c rest =>
      simp only [pySplitF]
      split
      · simp
      · split <;> simp

theorem pySplitF_no_tok (sep : Str) (fuel : Nat) (s : Str)
    (h : containsTok sep s = false) : pySplitF sep fuel s = [s] := by
  induction fuel generalizing s with
  | zero => cases s <;> simp [pySplitF]
  | succ f ih =>
    cases s with
    | nil => simp [pySplitF]
    | cons c rest =>
      simp only [containsTok, Bool.or_eq_false_iff] at h
      simp only [pySplitF, h.1, Bool.false_eq_true, if_false]
      rw [ih rest h.2]

/-- A string containing the (nonempty) separator splits into at least two
pieces. -/
theorem pySplitF_len2 (sep : Str) (hne : sep ≠ []) (fuel : Nat) (s : Str)
    (hlen : s.length ≤ fuel) (h : containsTok sep s = true) :
    2 ≤ (pySplitF sep fuel s).length := by
  induction fuel generalizing s with
  | zero =>
    rw [Nat.le_zero, List.length_eq_zero] at hlen
    subst hlen
    simp only [containsTok, List.isEmpty_iff] at h
    exact absurd h hne
  | succ f ih =>
    cases s with
    | nil =>
      simp only [containsTok, List.isEmpty_iff] at h
      exact absurd h hne
    | cons c rest =>
      simp only [pySplitF]
      split
      · have := pySplitF_ne_nil sep f (rest.drop (sep.length - 1))
        cases hsp : pySplitF sep f (rest.drop (sep.length - 1)) with
        | nil => exact absurd hsp this
        | cons t ts => simp
      · rename_i hpre
        simp only [containsTok, hpre, Bool.false_or] at h
        have h2 := ih rest (Nat.le_of_succ_le_succ hlen) h
        cases hsp : pySplitF sep f rest with
        | nil => exact absurd hsp (pySplitF_ne_nil sep f rest)
        | cons t ts =>
          rw [hsp] at h2
          simpa using h2

/-- `sep` cannot overlap itself: no nonempty proper suffix of `sep` is a
prefix of `sep`.  `"Final Answer:"` has this property, which makes the
left-to-right scan of `split` find every occurrence of the token. -/
def selfOverlapFree (sep : Str) : Bool :=
  (List.range sep.length).all (fun k => k = 0 || !(beginsWith (sep.drop k) sep))

theorem getLastD_cons_of_ne_nil {α : Type} (c : α) (t : List α) (d₁ d₂ : α)
    (h : t ≠ []) : (c :: t).getLastD d₁ = t.getLastD d₂ := by
  cases t with
  | nil => exact absurd rfl h
  | cons u us => simp only [List.getLastD_cons]

/-- The last piece of `split` on a self-overlap-free separator is the part
after the last occurrence: if `s = a ++ sep ++ b` and `sep` does not occur
in `b`, the scan ends with piece `b`. -/
theorem pyLast_pySplitF (sep : Str) (hne : sep ≠ [])
    (hov : selfOverlapFree sep = true) :
    ∀ (fuel : Nat) (s a b : Str), s.length ≤ fuel → s = a ++ sep ++ b →
      containsTok sep b = false → pyLast (pySplitF sep fuel s) = b := by
  intro fuel
  induction fuel with
  | zero =>
    intro s a b hlen hs hb
    rw [Nat.le_zero, List.length_eq_zero] at hlen
    subst hlen
    rcases List.append_eq_nil.mp hs.symm with ⟨h1, _⟩
    rcases List.append_eq_nil.mp h1 with ⟨_, h2⟩
    exact absurd h2 hne
  | succ f ih =>
    intro s a b hlen hs hb
    cases s with
    | nil =>
      rcases List.append_eq_nil.mp hs.symm with ⟨h1, _⟩
      rcases List.append_eq_nil.mp h1 with ⟨_, h2⟩
      exact absurd h2 hne
    | cons c rest =>
      have hsep_pos : 1 ≤ sep.length := by
        cases sep with
        | nil => exact absurd rfl hne
        | cons _ _ => simp
      simp only [pySplitF]
      by_cases hpre : beginsWith sep (c :: rest) = true
      · rw [if_pos hpre]
        have hsplitne := pySplitF_ne_nil sep f (rest.drop (sep.length - 1))
        have hlast : pyLast ([] :: pySplitF sep f (rest.drop (sep.length - 1))) =
            pyLast (pySplitF sep f (rest.drop (sep.length - 1))) :=
          getLastD_cons_of_ne_nil _ _ _ [] hsplitne
        rw [hlast]
        rcases (beginsWith_iff sep (c :: rest)).mp hpre with ⟨u, hu⟩
        have hdrop : rest.drop (sep.length - 1) = u := by
          have h1 : (c :: rest).drop sep.length = u := by
            rw [hu]
            exact List.drop_left sep u
          rw [← h1]
          have h2 : sep.length = (sep.length - 1) + 1 := (Nat.succ_pred_eq_of_pos hsep_pos).symm
          rw [h2]
          rfl
        rw [hdrop]
        cases a with
        | nil =>
          have hsb : sep ++ b = sep ++ u := by
            rw [← hu]
            exact (show c :: rest = sep ++ b by simpa using hs).symm
          rw [(List.append_cancel_left hsb).symm, pySplitF_no_tok sep f b hb]
          simp [pyLast]
        | cons d a' =>
          have hale : sep.length ≤ (d :: a').length := by
            by_contra hlt
            push_neg at hlt
            have h1 : (c :: rest).drop (d :: a').length = sep ++ b := by
              rw [hs, List.append_assoc]
              exact List.drop_left _ _
            have h2 : (c :: rest).drop (d :: a').length = sep.drop (d :: a').length ++ u := by
              rw [hu]
              exact List.drop_append_of_le_length (Nat.le_of_lt hlt)
            have h3 : sep.drop (d :: a').length ++ u = sep ++ b := by rw [← h2, h1]
            have h4 : sep.drop (d :: a').length = sep.take (sep.drop (d :: a').length).length := by
              calc sep.drop (d :: a').length
                  = (sep.drop (d :: a').length ++ u).take (sep.drop (d :: a').length).length :=
                    (List.take_left _ _).symm
                _ = (sep ++ b).take (sep.drop (d :: a').length).length := by rw [h3]
                _ = sep.take (sep.drop (d :: a').length).length :=
                    List.take_append_of_le_length (by simp)
            have h5 : beginsWith (sep.drop (d :: a').length) sep = true := by
              refine (beginsWith_iff _ _).mpr ⟨sep.drop (sep.drop (d :: a').length).length, ?_⟩
              conv_lhs => rw [← List.take_append_drop (sep.drop (d :: a').length).length sep]
              rw [← h4]
            have h6 := List.all_eq_true.mp hov (d :: a').length (List.mem_range.mpr hlt)
            simp only [Bool.or_eq_true, decide_eq_true_eq, Bool.not_eq_true] at h6
            rcases h6 with h6 | h6
            · simp at h6
            · exact absurd h5 (Bool.eq_false_iff.mp (by simpa using h6))
          have ht1 : (c :: rest).take sep.length = sep := by
            rw [hu]
            exact List.take_left sep u
          have ht2 : (c :: rest).take sep.length = (d :: a').take sep.length := by
            conv_lhs => rw [hs, List.append_assoc]
            exact List.take_append_of_le_length hale
          have hadecomp : d :: a' = sep ++ (d :: a').drop sep.length := by
            conv_lhs => rw [← List.take_append_drop sep.length (d :: a')]
            rw [← ht2, ht1]
          have hu2 : u = (d :: a').drop sep.length ++ sep ++ b := by
            have hcat : sep ++ u = sep ++ ((d :: a').drop sep.length ++ sep ++ b) := by
              rw [← hu, hs]
              conv_lhs => rw [hadecomp]
              simp [List.append_assoc]
            exact List.append_cancel_left hcat
          have hulen : u.length ≤ f := by
            have hl := congrArg List.length hu
            simp only [List.length_cons, List.length_append] at hl
            simp only [List.length_cons] at hlen
            omega
          exact ih u ((d :: a').drop sep.length) b hulen hu2 hb
      · rw [if_neg hpre]
        cases a with
        | nil =>
          exfalso
          apply hpre
          rw [hs]
          simpa using beginsWith_refl_append sep b
        | cons d a' =>
          rw [List.cons_append, List.cons_append] at hs
          injection hs with hcd hrest
          have hcont : containsTok sep rest = true := by
            rw [hrest]
            exact containsTok_of_decomp sep a' b
          have hrlen : rest.length ≤ f := Nat.le_of_succ_le_succ hlen
          have ihr := ih rest a' b hrlen hrest hb
          have h2 := pySplitF_len2 sep hne f rest hrlen hcont
          cases hsp : pySplitF sep f rest with
          | nil => exact absurd hsp (pySplitF_ne_nil sep f rest)
          | cons t ts =>
            rw [hsp] at ihr h2
            cases ts with
            | nil => simp at h2
            | cons t2 ts2 =>
              show pyLast ((c :: t) :: t2 :: ts2) = b
              simp only [pyLast, List.getLastD_cons] at ihr ⊢
              exact ihr

/-- Wrapper at the actual fuel used by `pySplit`. -/
theorem pyLast_pySplit (sep : Str) (hne : sep ≠ [])
    (hov : selfOverlapFree sep = true) (a b : Str)
    (hb : containsTok sep b = false) :
    pyLast (pySplit sep (a ++ sep ++ b)) = b :=
  pyLast_pySplitF sep hne hov _ _ a b (Nat.le_refl _) rfl hb

/-- C2: an output containing `Final Answer:` parses to the final-answer
decision whose payload is the text after the last occurrence of the marker,
stripped of leading and trailing whitespace. -/
theorem parse_final_answer_last (a b : Str)
    (hb : containsTok FINAL_ANSWER_TOKEN b = false) :
    agentParse (a ++ FINAL_ANSWER_TOKEN ++ b) =
      .ok (FINAL_ANSWER_TAG, pyStrip pyIsSpace b) := by
  unfold agentParse
  rw [if_pos (containsTok_of_decomp _ a b), pyLast_pySplit _ (by decide) (by decide) a b hb]

/-- C2 witness: `"Final Answer: A\nFinal Answer: B"` parses to the payload
`"B"` (last occurrence wins). -/
theorem parse_final_answer_last_wit :
    containsTok FINAL_ANSWER_TOKEN " B".data = false ∧
    agentParse ("Final Answer: A\n".data ++ FINAL_ANSWER_TOKEN ++ " B".data) =
      .ok (FINAL_ANSWER_TAG, "B".data) := by
  refine ⟨by decide, ?_⟩
  rw [parse_final_answer_last "Final Answer: A\n".data " B".data (by decide)]
  rfl

/-! ### Lemmas about the Action/Action Input regex model -/

theorem tryActionAt_none_of_not_begins (s : Str)
    (h : beginsWith ACTION_TOKEN s = false) : tryActionAt s = none := by
  unfold tryActionAt
  rw [h]
  rfl

theorem searchAction_some_of_tryActionAt (s : Str) (r : Str × Str)
    (h : tryActionAt s = some r) : searchAction s = some r := by
  cases s with
  | nil =>
    rw [tryActionAt_none_of_not_begins [] (by decide)] at h
    exact absurd h (by simp)
  | cons c rest =>
    simp only [searchAction, h]

/-- Scanning skips positions where the pattern does not match. -/
theorem searchAction_skip (x : Str) : ∀ (s : Str),
    (∀ i, i < x.length → tryActionAt ((x ++ s).drop i) = none) →
    searchAction (x ++ s) = searchAction s := by
  induction x with
  | nil => intro s _; rfl
  | cons c x' ih =>
    intro s h
    have h0 := h 0 (by simp)
    simp only [List.drop_zero] at h0
    show (match tryActionAt (c :: (x' ++ s)) with
      | some r => some r
      | none => searchAction (x' ++ s)) = searchAction s
    rw [show tryActionAt (c :: (x' ++ s)) = none from h0]
    exact ih s (fun i hi => h (i + 1) (by simp only [List.length_cons]; omega))

/-- Either `u` starts with `[` and `stripLb` removes it, or it leaves `u`
unchanged. -/
theorem stripLb_cases (u : Str) : u = '[' :: stripLb u ∨ stripLb u = u := by
  cases u with
  | nil => exact Or.inr rfl
  | cons c u' =>
    by_cases hc : c = '['
    · subst hc
      exact Or.inl rfl
    · right
      unfold stripLb
      split
      · rename_i heq
        injection heq with h1 _
        exact absurd h1 hc
      · rfl

theorem stripLb_not_lb (c : Char) (l : Str) (hc : c ≠ '[') : stripLb (c :: l) = c :: l := by
  unfold stripLb
  split
  · rename_i heq
    injection heq with h1 _
    exact absurd h1 hc
  · rfl

theorem matchTail_not_rb (c : Char) (l : Str) (hc : c ≠ ']') :
    matchTail (c :: l) = matchNlAI (c :: l) := by
  unfold matchTail
  split
  · rename_i heq
    injection heq with h1 _
    exact absurd h1 hc
  · rfl

theorem matchTail_cases (u : Str) :
    (∃ u', u = ']' :: u' ∧ matchTail u = matchNlAI u') ∨ matchTail u = matchNlAI u := by
  cases u with
  | nil => exact Or.inr rfl
  | cons c u' =>
    by_cases hc : c = ']'
    · subst hc
      exact Or.inl ⟨u', rfl, rfl⟩
    · exact Or.inr (matchTail_not_rb c u' hc)

theorem matchNlAI_some_contains (u r : Str) (h : matchNlAI u = some r) :
    containsTok ACTION_INPUT_TOKEN u = true := by
  by_cases hb : beginsWith ACTION_INPUT_TOKEN (u.dropWhile (fun c => c = '\n')) = true
  · rcases (beginsWith_iff _ _).mp hb with ⟨w, hw⟩
    have hu : u = u.takeWhile (fun c => c = '\n') ++ (ACTION_INPUT_TOKEN ++ w) := by
      conv_lhs => rw [← List.takeWhile_append_dropWhile (fun c => c = '\n') u]
      rw [hw]
    rw [hu, ← List.append_assoc]
    exact containsTok_of_decomp _ _ w
  · unfold matchNlAI at h
    rw [Bool.eq_false_iff.mpr hb] at h
    simp at h

theorem matchTail_some_contains (u r : Str) (h : matchTail u = some r) :
    containsTok ACTION_INPUT_TOKEN u = true := by
  rcases matchTail_cases u with ⟨u', hu, he⟩ | he
  · rw [he] at h
    rw [hu]
    exact containsTok_append_left _ [']'] u' (matchNlAI_some_contains u' r h)
  · rw [he] at h
    exact matchNlAI_some_contains u r h

theorem lazyCapture_some_contains (v : Str) : ∀ (g : Str × Str),
    lazyCapture v = some g → containsTok ACTION_INPUT_TOKEN v = true := by
  induction v with
  | nil =>
    intro g h
    simp only [lazyCapture] at h
    cases hm : matchTail [] with
    | none => rw [hm] at h; simp at h
    | some rest => exact matchTail_some_contains [] rest hm
  | cons c v' ih =>
    intro g h
    simp only [lazyCapture] at h
    cases hm : matchTail (c :: v') with
    | some rest => exact matchTail_some_contains _ rest hm
    | none =>
      rw [hm] at h
      cases hl : lazyCapture v' with
      | none => rw [hl] at h; simp at h
      | some g' => exact containsTok_append_left _ [c] v' (ih g' hl)

theorem tryActionAt_some_contains (s : Str) (r : Str × Str)
    (h : tryActionAt s = some r) :
    containsTok ACTION_TOKEN s = true ∧ containsTok ACTION_INPUT_TOKEN s = true := by
  by_cases hb : beginsWith ACTION_TOKEN s = true
  · rcases (beginsWith_iff _ _).mp hb with ⟨u, hu⟩
    constructor
    · rw [hu]
      exact containsTok_of_decomp _ [] u
    · have hdrop : s.drop ACTION_TOKEN.length = u := by
        rw [hu]
        exact List.drop_left _ _
      unfold tryActionAt at h
      rw [hb, if_pos rfl, hdrop] at h
      have hv : containsTok ACTION_INPUT_TOKEN (stripLb u) = true := by
        cases hl : lazyCapture (stripLb u) with
        | none => rw [hl] at h; simp at h
        | some g => exact lazyCapture_some_contains _ g hl
      have hcu : containsTok ACTION_INPUT_TOKEN u = true := by
        rcases stripLb_cases u with hcase | hcase
        · rw [hcase]
          exact containsTok_append_left _ ['['] _ hv
        · rw [← hcase]
          exact hv
      rw [hu]
      exact containsTok_append_left _ ACTION_TOKEN u hcu
  · rw [tryActionAt_none_of_not_begins s (Bool.eq_false_iff.mpr hb)] at h
    exact absurd h (by simp)

theorem searchAction_some_contains (s : Str) : ∀ (r : Str × Str),
    searchAction s = some r →
    containsTok ACTION_TOKEN s = true ∧ containsTok ACTION_INPUT_TOKEN s = true := by
  induction s with
  | nil => intro r h; simp [searchAction] at h
  | cons c rest ih =>
    intro r h
    simp only [searchAction] at h
    cases ht : tryActionAt (c :: rest) with
    | some r' => exact tryActionAt_some_contains _ r' ht
    | none =>
      rw [ht] at h
      rcases ih r h with ⟨h1, h2⟩
      exact ⟨containsTok_append_left _ [c] rest h1, containsTok_append_left _ [c] rest h2⟩

/-- C5: an output without the `Final Answer:` marker in which the regex
cannot match (it lacks `Action: ` or lacks `Action Input:`) makes `_parse`
fail, and the failure carries the raw output. -/
theorem parse_failure_raw (s : Str)
    (hfa : containsTok FINAL_ANSWER_TOKEN s = false)
    (h : containsTok ACTION_TOKEN s = false ∨ containsTok ACTION_INPUT_TOKEN s = false) :
    agentParse s = .error s := by
  unfold agentParse
  rw [if_neg (by rw [hfa]; exact Bool.false_ne_true)]
  cases hsearch : searchAction s with
  | none => rfl
  | some r =>
    exfalso
    rcases searchAction_some_contains s r hsearch with ⟨h1, h2⟩
    rcases h with h | h
    · rw [h1] at h; exact Bool.true_eq_false.mp h
    · rw [h2] at h; exact Bool.true_eq_false.mp h

/-- C5 witness: a raw output with neither marker parses to the failure
carrying exactly that output. -/
theorem parse_failure_raw_wit :
    containsTok FINAL_ANSWER_TOKEN "I have no idea what to do".data = false ∧
    containsTok ACTION_TOKEN "I have no idea what to do".data = false ∧
    agentParse "I have no idea what to do".data = .error "I have no idea what to do".data :=
  ⟨by decide, by decide,
    parse_failure_raw "I have no idea what to do".data (by decide) (Or.inl (by decide))⟩

/-! ### C3: what exactly the quote-stripping does -/

/-- C3 counterexample: on `Action Input: ""hello""` the code strips ALL
leading and trailing double-quote characters — the parsed input is
`hello`, not the `"hello"` (one quote removed per end) that the claim
predicts. -/
theorem parse_quote_strip_cex :
    agentParse "Action: Search\nAction Input: \"\"hello\"\"".data =
      .ok ("Search".data, "hello".data) ∧
    ("hello".data : Str) ≠ "\"hello\"".data := by
  constructor
  · rfl
  · decide

theorem dropWhile_cons_false (p : Char → Bool) (c : Char) (l : Str) (hc : p c = false) :
    (c :: l).dropWhile p = c :: l := by
  rw [List.dropWhile_cons, hc]
  simp

/-- At the seam `\nAction Input:` the `[\n]*` eats the newline and the
literal matches, leaving exactly the text after the marker. -/
theorem matchNlAI_at_seam (inp : Str) :
    matchNlAI ('\n' :: (ACTION_INPUT_TOKEN ++ inp)) = some inp := by
  have hAI : ACTION_INPUT_TOKEN = 'A' :: "ction Input:".data := by decide
  have h1 : ('\n' :: (ACTION_INPUT_TOKEN ++ inp)).dropWhile (fun c => c = '\n') =
      ACTION_INPUT_TOKEN ++ inp := by
    rw [List.dropWhile_cons, if_pos (by decide)]
    rw [hAI, List.cons_append]
    exact dropWhile_cons_false _ _ _ (by decide)
  unfold matchNlAI
  rw [h1, if_pos (beginsWith_refl_append _ _), List.drop_left]

/-- The literal `Action Input:` cannot begin at a position inside the name
part of a well-formed tail: the name does not contain it and the token
contains no newline, so it cannot straddle the seam. -/
theorem not_begins_AI_name (c : Char) (name' inp : Str)
    (hai : containsTok ACTION_INPUT_TOKEN (c :: name') = false) :
    beginsWith ACTION_INPUT_TOKEN
      ((c :: name') ++ '\n' :: (ACTION_INPUT_TOKEN ++ inp)) = false := by
  cases hb : beginsWith ACTION_INPUT_TOKEN
      ((c :: name') ++ '\n' :: (ACTION_INPUT_TOKEN ++ inp)) with
  | false => rfl
  | true =>
    exfalso
    rcases (beginsWith_iff _ _).mp hb with ⟨w, hw⟩
    rcases List.append_eq_append_iff.mp hw with ⟨a', ha1, ha2⟩ | ⟨c', hc1, _⟩
    · cases a' with
      | nil =>
        have hAIeq : ACTION_INPUT_TOKEN = c :: name' := by simpa using ha1
        have hcon : containsTok ACTION_INPUT_TOKEN (c :: name') = true := by
          rw [← hAIeq]
          simpa using containsTok_of_decomp ACTION_INPUT_TOKEN [] []
        rw [hcon] at hai
        simp at hai
      | cons e a'' =>
        rw [List.cons_append] at ha2
        injection ha2 with he _
        have hmem : ('\n' : Char) ∈ ACTION_INPUT_TOKEN := by
          rw [ha1]
          refine List.mem_append_right _ ?_
          rw [← he]
          exact List.mem_cons_self _ _
        exact absurd hmem (by decide)
    · have hcon : containsTok ACTION_INPUT_TOKEN (c :: name') = true := by
        rw [hc1]
        simpa using containsTok_of_decomp ACTION_INPUT_TOKEN [] c'
      rw [hcon] at hai
      simp at hai

/-- On a well-formed tail `name ++ "\n" ++ "Action Input:" ++ inp` the lazy
group captures exactly `name` and the remainder after the marker is exactly
`inp`. -/
theorem lazyCapture_exact (name inp : Str)
    (hnl : name.all (fun c => c ≠ '\n') = true)
    (hbr : name.all (fun c => c ≠ ']') = true)
    (hai : containsTok ACTION_INPUT_TOKEN name = false) :
    lazyCapture (name ++ '\n' :: (ACTION_INPUT_TOKEN ++ inp)) = some (name, inp) := by
  induction name with
  | nil =>
    show lazyCapture ('\n' :: (ACTION_INPUT_TOKEN ++ inp)) = some ([], inp)
    simp only [lazyCapture]
    rw [matchTail_not_rb '\n' _ (by decide), matchNlAI_at_seam]
  | cons c name' ih =>
    rw [List.all_cons, Bool.and_eq_true] at hnl hbr
    have hcnl : c ≠ '\n' := by simpa using hnl.1
    have hcbr : c ≠ ']' := by simpa using hbr.1
    have hai' : containsTok ACTION_INPUT_TOKEN name' = false := by
      cases hcon : containsTok ACTION_INPUT_TOKEN name' with
      | false => rfl
      | true =>
        have h2 := containsTok_append_left ACTION_INPUT_TOKEN [c] name' hcon
        rw [List.singleton_append] at h2
        rw [h2] at hai
        simp at hai
    have hmt : matchTail (c :: (name' ++ '\n' :: (ACTION_INPUT_TOKEN ++ inp))) = none := by
      rw [matchTail_not_rb c _ hcbr]
      unfold matchNlAI
      rw [dropWhile_cons_false _ _ _ (decide_eq_false hcnl)]
      have hnb := not_begins_AI_name c name' inp hai
      rw [List.cons_append] at hnb
      rw [hnb]
      simp
    show (match matchTail (c :: (name' ++ '\n' :: (ACTION_INPUT_TOKEN ++ inp))) with
      | some rest => some (([] : Str), rest)
      | none =>
        match lazyCapture (name' ++ '\n' :: (ACTION_INPUT_TOKEN ++ inp)) with
        | some (g1, rest) => some (c :: g1, rest)
        | none => none) = some (c :: name', inp)
    rw [hmt, ih hnl.2 hbr.2 hai']

/-- C3 (amended): for a well-formed Action/Action Input output, the tool
name is trimmed of surrounding whitespace and the tool input — the text
after the marker, with the whitespace run matched by `[\s]*` removed — is
trimmed of leading/trailing plain spaces and then of ALL leading and
trailing double-quote characters (every quote in the maximal run at each
end is removed, even if unbalanced), not of at most one per end. -/
theorem parse_action_strips_all_quotes (pre name inp : Str)
    (hhd : name.head? ≠ some '[')
    (hnm : name ≠ [])
    (hnl : name.all (fun c => c ≠ '\n') = true)
    (hbr : name.all (fun c => c ≠ ']') = true)
    (hai : containsTok ACTION_INPUT_TOKEN name = false)
    (hfa : containsTok FINAL_ANSWER_TOKEN
      (pre ++ ACTION_TOKEN ++ (name ++ '\n' :: (ACTION_INPUT_TOKEN ++ inp))) = false)
    (hfirst : ∀ i, i < pre.length → beginsWith ACTION_TOKEN
      ((pre ++ ACTION_TOKEN ++ (name ++ '\n' :: (ACTION_INPUT_TOKEN ++ inp))).drop i) = false) :
    agentParse (pre ++ ACTION_TOKEN ++ (name ++ '\n' :: (ACTION_INPUT_TOKEN ++ inp))) =
      .ok (pyStrip pyIsSpace name,
        pyStrip (fun c => c = '"') (pyStrip (fun c => c = ' ') (inp.dropWhile pyIsSpace))) := by
  have htry : tryActionAt (ACTION_TOKEN ++ (name ++ '\n' :: (ACTION_INPUT_TOKEN ++ inp))) =
      some (name, inp.dropWhile pyIsSpace) := by
    unfold tryActionAt
    rw [if_pos (beginsWith_refl_append ACTION_TOKEN _), List.drop_left]
    cases name with
    | nil => exact absurd rfl hnm
    | cons c name' =>
      have hc : c ≠ '[' := by
        intro hceq
        apply hhd
        rw [hceq]
        rfl
      rw [List.cons_append, stripLb_not_lb c _ hc, ← List.cons_append,
        lazyCapture_exact (c :: name') inp hnl hbr hai]
  have hsearch : searchAction
      (pre ++ ACTION_TOKEN ++ (name ++ '\n' :: (ACTION_INPUT_TOKEN ++ inp))) =
      some (name, inp.dropWhile pyIsSpace) := by
    rw [List.append_assoc]
    rw [searchAction_skip pre _ (fun i hi => by
      apply tryActionAt_none_of_not_begins
      have h := hfirst i hi
      rw [List.append_assoc] at h
      exact h)]
    exact searchAction_some_of_tryActionAt _ _ htry
  unfold agentParse
  rw [if_neg (by rw [hfa]; exact Bool.false_ne_true), hsearch]

/-- C3 (amended) witness: `"Thought: x\nAction: Search\nAction Input:
\"hello\""` parses to the tool `Search` with input `hello`. -/
theorem parse_action_strips_all_quotes_wit :
    "Thought: x\n".data ++ ACTION_TOKEN ++
      ("Search".data ++ '\n' :: (ACTION_INPUT_TOKEN ++ " \"hello\"".data)) =
      "Thought: x\nAction: Search\nAction Input: \"hello\"".data ∧
    agentParse "Thought: x\nAction: Search\nAction Input: \"hello\"".data =
      .ok ("Search".data, "hello".data) := by
  refine ⟨by decide, ?_⟩
  rw [show "Thought: x\nAction: Search\nAction Input: \"hello\"".data =
    "Thought: x\n".data ++ ACTION_TOKEN ++
      ("Search".data ++ '\n' :: (ACTION_INPUT_TOKEN ++ " \"hello\"".data)) from by decide]
  rw [parse_action_strips_all_quotes "Thought: x\n".data "Search".data " \"hello\"".data
    (by decide) (by decide) (by decide) (by decide) (by decide) (by decide) (by decide)]
  rfl

/-! ### One-step equations for the loop -/

theorem runLoop_step_fmt (cfg : AgentCfg) (prompt : Str) (f nl : Nat)
    (prevs : List Str) (thinking : List ThinkingStep)
    (hcur : pyFormat prompt (loopEnv prevs) = none) :
    runLoop cfg prompt (f + 1) nl prevs thinking = .failure .fmt thinking := by
  simp only [runLoop, hcur]

theorem runLoop_step_parse_err (cfg : AgentCfg) (prompt : Str) (f nl : Nat)
    (prevs : List Str) (thinking : List ThinkingStep) (curr raw : Str)
    (hcur : pyFormat prompt (loopEnv prevs) = some curr)
    (hp : agentParse (cfg.llm nl curr cfg.stop_pattern) = .error raw) :
    runLoop cfg prompt (f + 1) nl prevs thinking = .failure (.parseFailure raw) thinking := by
  simp only [runLoop, hcur, hp]

theorem runLoop_step_final (cfg : AgentCfg) (prompt : Str) (f nl : Nat)
    (prevs : List Str) (thinking : List ThinkingStep) (curr inp : Str)
    (hcur : pyFormat prompt (loopEnv prevs) = some curr)
    (hp : agentParse (cfg.llm nl curr cfg.stop_pattern) = .ok (FINAL_ANSWER_TAG, inp)) :
    runLoop cfg prompt (f + 1) nl prevs thinking =
      .answer inp (thinking ++ [⟨nl + 1, cfg.llm nl curr cfg.stop_pattern,
        FINAL_ANSWER_TAG, inp, some inp, none⟩]) := by
  simp only [runLoop, hcur, hp, eq_self_iff_true, if_true]

theorem runLoop_step_unknown (cfg : AgentCfg) (prompt : Str) (f nl : Nat)
    (prevs : List Str) (thinking : List ThinkingStep) (curr t inp : Str)
    (hcur : pyFormat prompt (loopEnv prevs) = some curr)
    (hp : agentParse (cfg.llm nl curr cfg.stop_pattern) = .ok (t, inp))
    (hnf : ¬ t = FINAL_ANSWER_TAG)
    (htool : tool_by_names cfg.tools t = none) :
    runLoop cfg prompt (f + 1) nl prevs thinking = .failure (.unknownTool t) thinking := by
  simp only [runLoop, hcur, hp, if_neg hnf, htool]

theorem runLoop_step_cont (cfg : AgentCfg) (prompt : Str) (f nl : Nat)
    (prevs : List Str) (thinking : List ThinkingStep) (curr t inp : Str) (tl : Tool)
    (hcur : pyFormat prompt (loopEnv prevs) = some curr)
    (hp : agentParse (cfg.llm nl curr cfg.stop_pattern) = .ok (t, inp))
    (hnf : ¬ t = FINAL_ANSWER_TAG)
    (htool : tool_by_names cfg.tools t = some tl) :
    runLoop cfg prompt (f + 1) nl prevs thinking =
      runLoop cfg prompt f (nl + 1)
        (prevs ++ [cfg.llm nl curr cfg.stop_pattern ++ '\n' ::
          (OBSERVATION_TOKEN ++ ' ' :: (tl.use inp ++ '\n' :: THOUGHT_TOKEN))])
        (thinking ++ [⟨nl + 1, cfg.llm nl curr cfg.stop_pattern, t, inp, none,
          some (tl.use inp)⟩]) := by
  simp only [runLoop, hcur, hp, if_neg hnf, htool]

/-! ### Demonstration configurations used by the witnesses -/

/-- A concrete tool returning observation `r` for every input. -/
def demoTool : Tool := ⟨"T".data, "demo tool".data, fun _ => "r".data, fun _ => "r".data⟩

/-- A model output invoking `demoTool`. -/
def demoToolCall : Str := "Thought: t\nAction: T\nAction Input: q".data

/-- A configuration whose model always invokes the tool, over a minimal
one-placeholder template. -/
def demoCfg : AgentCfg :=
  ⟨fun _ _ _ => demoToolCall, fun _ _ _ => demoToolCall, [demoTool],
    "{previous_responses}".data, 15, DEFAULT_STOP_PATTERN, "2024-01-01".data⟩

/-- A configuration whose model invokes the tool on the first call and
answers `42` on every later call. -/
def demoCfgFinal : AgentCfg :=
  ⟨fun i _ _ => if i = 0 then demoToolCall else "Final Answer: 42".data,
    fun i _ _ => if i = 0 then demoToolCall else "Final Answer: 42".data,
    [demoTool], "{previous_responses}".data, 15, DEFAULT_STOP_PATTERN, "2024-01-01".data⟩

/-- A configuration whose model invokes the tool on the first call and an
unknown tool `Nope` on every later call. -/
def demoCfgUnknown : AgentCfg :=
  ⟨fun i _ _ => if i = 0 then demoToolCall else "Action: Nope\nAction Input: q".data,
    fun i _ _ => if i = 0 then demoToolCall else "Action: Nope\nAction Input: q".data,
    [demoTool], "{previous_responses}".data, 15, DEFAULT_STOP_PATTERN, "2024-01-01".data⟩

/-- A configuration over the real `PROMPT_TEMPLATE`. -/
def demoCfgTemplate : AgentCfg :=
  ⟨fun _ _ _ => demoToolCall, fun _ _ _ => demoToolCall, [demoTool],
    PROMPT_TEMPLATE, 15, DEFAULT_STOP_PATTERN, "2024-01-01".data⟩

/-- A tool whose observation is a single closing brace. -/
def demoToolBraceObs : Tool :=
  ⟨"T".data, "demo tool".data, fun _ => "\x7d".data, fun _ => "\x7d".data⟩

/-- Real template, tool observations containing a brace. -/
def demoCfgBraceObs : AgentCfg :=
  ⟨fun _ _ _ => demoToolCall, fun _ _ _ => demoToolCall, [demoToolBraceObs],
    PROMPT_TEMPLATE, 15, DEFAULT_STOP_PATTERN, "2024-01-01".data⟩

/-- The stage-one rendering of the real template for the demo catalog. -/
def demoRenderedPrompt : Str :=
  (pyFormat PROMPT_TEMPLATE (initialEnv demoCfgTemplate "Q".data)).getD []

/-- A tool whose description is a single opening brace. -/
def demoToolBraceDesc : Tool :=
  ⟨"T".data, "\x7b".data, fun _ => "r".data, fun _ => "r".data⟩

/-- Real template, tool description containing a brace. -/
def demoCfgBraceDesc : AgentCfg :=
  ⟨fun _ _ _ => demoToolCall, fun _ _ _ => demoToolCall, [demoToolBraceDesc],
    PROMPT_TEMPLATE, 15, DEFAULT_STOP_PATTERN, "2024-01-01".data⟩

/-! ### C1: iteration budget exhaustion -/

/-- If the per-iteration format always succeeds and the model always
produces a known tool invocation, the loop consumes all its fuel and
returns the fallback with one step recorded per iteration. -/
theorem runLoop_exhausts (cfg : AgentCfg) (prompt : Str)
    (hfmt : ∀ prevs, (pyFormat prompt (loopEnv prevs)).isSome = true)
    (hllm : ∀ i p, ∃ t inp tl, agentParse (cfg.llm i p cfg.stop_pattern) = .ok (t, inp) ∧
      ¬ t = FINAL_ANSWER_TAG ∧ tool_by_names cfg.tools t = some tl) :
    ∀ (fuel nl : Nat) (prevs : List Str) (thinking : List ThinkingStep), ∃ tr,
      runLoop cfg prompt fuel nl prevs thinking = .answer FALLBACK_ANSWER (thinking ++ tr) ∧
      tr.length = fuel := by
  intro fuel
  induction fuel with
  | zero =>
    intro nl prevs thinking
    exact ⟨[], by simp [runLoop], rfl⟩
  | succ f ih =>
    intro nl prevs thinking
    obtain ⟨curr, hcur⟩ := Option.isSome_iff_exists.mp (hfmt prevs)
    obtain ⟨t, inp, tl, hp, hnf, htool⟩ := hllm nl curr
    obtain ⟨tr, hrec, hlen⟩ := ih (nl + 1)
      (prevs ++ [cfg.llm nl curr cfg.stop_pattern ++ '\n' ::
        (OBSERVATION_TOKEN ++ ' ' :: (tl.use inp ++ '\n' :: THOUGHT_TOKEN))])
      (thinking ++ [⟨nl + 1, cfg.llm nl curr cfg.stop_pattern, t, inp, none, some (tl.use inp)⟩])
    refine ⟨⟨nl + 1, cfg.llm nl curr cfg.stop_pattern, t, inp, none, some (tl.use inp)⟩ :: tr,
      ?_, by simp [hlen]⟩
    rw [runLoop_step_cont cfg prompt f nl prevs thinking curr t inp tl hcur hp hnf htool, hrec]
    simp

/-- C1: in a run where every model output parses to a tool invocation
(never a final answer) and every tool lookup succeeds, reaching
`max_iterations` terminates normally with exactly the fallback string and a
trace of exactly `max_iterations` entries. -/
theorem run_exhausted_returns_fallback (cfg : AgentCfg) (question : Str) (n : Nat)
    (hfmt0 : (pyFormat cfg.prompt_template (initialEnv cfg question)).isSome = true)
    (hfmt : ∀ prompt, pyFormat cfg.prompt_template (initialEnv cfg question) = some prompt →
      ∀ prevs, (pyFormat prompt (loopEnv prevs)).isSome = true)
    (hllm : ∀ i p, ∃ t inp tl, agentParse (cfg.llm i p cfg.stop_pattern) = .ok (t, inp) ∧
      ¬ t = FINAL_ANSWER_TAG ∧ tool_by_names cfg.tools t = some tl) :
    ∃ tr, Agent.run cfg question (some n) = .answer FALLBACK_ANSWER tr ∧ tr.length = n := by
  obtain ⟨prompt, hprompt⟩ := Option.isSome_iff_exists.mp hfmt0
  have hfmtP := hfmt prompt hprompt
  obtain ⟨p0, hp0⟩ := Option.isSome_iff_exists.mp (hfmtP [])
  obtain ⟨tr, hrun, hlen⟩ := runLoop_exhausts cfg prompt hfmtP hllm n 0 [] []
  refine ⟨tr, ?_, hlen⟩
  unfold Agent.run
  rw [hprompt]
  simp only []
  rw [hp0]
  simpa using hrun

/-- C1 witness: `max_iterations = 1` with a model that never answers yields
the fallback and a one-entry trace. -/
theorem run_exhausted_returns_fallback_wit :
    ∃ tr, Agent.run demoCfg "Q".data (some 1) = .answer FALLBACK_ANSWER tr ∧ tr.length = 1 := by
  apply run_exhausted_returns_fallback
  · rfl
  · intro prompt hprompt prevs
    have hpr : prompt = "{previous_responses}".data := by
      have h0 : pyFormat demoCfg.prompt_template (initialEnv demoCfg "Q".data) =
          some "{previous_responses}".data := by rfl
      rw [h0] at hprompt
      exact (Option.some.inj hprompt).symm
    subst hpr
    rfl
  · intro i p
    exact ⟨"T".data, "q".data, demoTool, rfl, by decide, rfl⟩

/-! ### C6: immediate return on the first final answer -/

/-- Helper: calls before the `k`-th iteration produce known tool
invocations and the `k`-th call produces `Final Answer` with payload
`ans`; then the loop returns `ans` with the terminal record appended, and
the trace grows by exactly `k - nl` entries. -/
theorem runLoop_final_at (cfg : AgentCfg) (prompt : Str) (k : Nat) (ans : Str)
    (hfmt : ∀ prevs, (pyFormat prompt (loopEnv prevs)).isSome = true)
    (hpre : ∀ i p, i + 1 < k → ∃ t inp tl,
      agentParse (cfg.llm i p cfg.stop_pattern) = .ok (t, inp) ∧
      ¬ t = FINAL_ANSWER_TAG ∧ tool_by_names cfg.tools t = some tl)
    (hfin : ∀ p, agentParse (cfg.llm (k - 1) p cfg.stop_pattern) = .ok (FINAL_ANSWER_TAG, ans)) :
    ∀ (fuel nl : Nat) (prevs : List Str) (thinking : List ThinkingStep),
      nl + 1 ≤ k → k ≤ nl + fuel →
      ∃ tr, runLoop cfg prompt fuel nl prevs thinking = .answer ans tr ∧
        tr.length = thinking.length + (k - nl) ∧
        (tr.getLastD emptyStep).result = some ans ∧
        (tr.getLastD emptyStep).step = k := by
  intro fuel
  induction fuel with
  | zero =>
    intro nl prevs thinking h1 h2
    omega
  | succ f ih =>
    intro nl prevs thinking h1 h2
    obtain ⟨curr, hcur⟩ := Option.isSome_iff_exists.mp (hfmt prevs)
    by_cases hk : nl + 1 = k
    · have hnl : nl = k - 1 := by omega
      have hp := hfin curr
      rw [← hnl] at hp
      refine ⟨thinking ++ [⟨nl + 1, cfg.llm nl curr cfg.stop_pattern,
        FINAL_ANSWER_TAG, ans, some ans, none⟩],
        runLoop_step_final cfg prompt f nl prevs thinking curr ans hcur hp, ?_, ?_, ?_⟩
      · simp
        omega
      · rw [List.getLastD_concat]
      · rw [List.getLastD_concat]
        show nl + 1 = k
        exact hk
    · have hlt : nl + 1 < k := by omega
      obtain ⟨t, inp, tl, hp, hnf, htool⟩ := hpre nl curr hlt
      obtain ⟨tr, hrec, hlen, hres, hstep⟩ := ih (nl + 1)
        (prevs ++ [cfg.llm nl curr cfg.stop_pattern ++ '\n' ::
          (OBSERVATION_TOKEN ++ ' ' :: (tl.use inp ++ '\n' :: THOUGHT_TOKEN))])
        (thinking ++ [⟨nl + 1, cfg.llm nl curr cfg.stop_pattern, t, inp, none, some (tl.use inp)⟩])
        (by omega) (by omega)
      refine ⟨tr, ?_, ?_, hres, hstep⟩
      · rw [runLoop_step_cont cfg prompt f nl prevs thinking curr t inp tl hcur hp hnf htool]
        exact hrec
      · simp at hlen
        omega

/-- C6: if iteration `k` is the first whose output parses to
`FinalAnswer(ans)` (earlier iterations being known tool invocations), `run`
returns `ans`, the trace has exactly `k` entries, and its last entry is a
terminal record carrying the answer at step `k` — nothing runs after
iteration `k`. -/
theorem run_final_answer_immediate (cfg : AgentCfg) (question : Str) (n k : Nat) (ans : Str)
    (hk : 1 ≤ k) (hkn : k ≤ n)
    (hfmt0 : (pyFormat cfg.prompt_template (initialEnv cfg question)).isSome = true)
    (hfmt : ∀ prompt, pyFormat cfg.prompt_template (initialEnv cfg question) = some prompt →
      ∀ prevs, (pyFormat prompt (loopEnv prevs)).isSome = true)
    (hpre : ∀ i p, i + 1 < k → ∃ t inp tl,
      agentParse (cfg.llm i p cfg.stop_pattern) = .ok (t, inp) ∧
      ¬ t = FINAL_ANSWER_TAG ∧ tool_by_names cfg.tools t = some tl)
    (hfin : ∀ p, agentParse (cfg.llm (k - 1) p cfg.stop_pattern) = .ok (FINAL_ANSWER_TAG, ans)) :
    ∃ tr, Agent.run cfg question (some n) = .answer ans tr ∧ tr.length = k ∧
      (tr.getLastD emptyStep).result = some ans ∧ (tr.getLastD emptyStep).step = k := by
  obtain ⟨prompt, hprompt⟩ := Option.isSome_iff_exists.mp hfmt0
  have hfmtP := hfmt prompt hprompt
  obtain ⟨p0, hp0⟩ := Option.isSome_iff_exists.mp (hfmtP [])
  obtain ⟨tr, hrun, hlen, hres, hstep⟩ :=
    runLoop_final_at cfg prompt k ans hfmtP hpre hfin n 0 [] [] (by omega) (by omega)
  refine ⟨tr, ?_, by simpa using hlen, hres, hstep⟩
  unfold Agent.run
  rw [hprompt]
  simp only []
  rw [hp0]
  exact hrun

/-- C6 witness: tool call at iteration 1, final answer `42` at iteration 2
of a 3-iteration budget: the run returns `42` with a 2-entry trace whose
last record holds the answer. -/
theorem run_final_answer_immediate_wit :
    ∃ tr, Agent.run demoCfgFinal "Q".data (some 3) = .answer "42".data tr ∧ tr.length = 2 ∧
      (tr.getLastD emptyStep).result = some "42".data ∧ (tr.getLastD emptyStep).step = 2 := by
  apply run_final_answer_immediate demoCfgFinal "Q".data 3 2 "42".data (by omega) (by omega)
  · rfl
  · intro prompt hprompt prevs
    have hpr : prompt = "{previous_responses}".data := by
      have h0 : pyFormat demoCfgFinal.prompt_template (initialEnv demoCfgFinal "Q".data) =
          some "{previous_responses}".data := by rfl
      rw [h0] at hprompt
      exact (Option.some.inj hprompt).symm
    subst hpr
    rfl
  · intro i p hi
    have hi0 : i = 0 := by omega
    subst hi0
    exact ⟨"T".data, "q".data, demoTool, rfl, by decide, rfl⟩
  · intro p
    rfl

/-! ### C4 and C10: unknown tool -/

/-- Helper: calls before the `k`-th iteration produce known tool
invocations; the `k`-th call produces a tool invocation whose name has no
catalog entry.  The loop fails with `UnknownTool`, and the recorded trace
holds only the `k - 1 - nl` prior completed steps — the failing step is
never appended. -/
theorem runLoop_unknown_at (cfg : AgentCfg) (prompt : Str) (k : Nat) (t : Str)
    (hfmt : ∀ prevs, (pyFormat prompt (loopEnv prevs)).isSome = true)
    (hpre : ∀ i p, i + 1 < k → ∃ t' inp tl,
      agentParse (cfg.llm i p cfg.stop_pattern) = .ok (t', inp) ∧
      ¬ t' = FINAL_ANSWER_TAG ∧ tool_by_names cfg.tools t' = some tl)
    (hbad : ∀ p, ∃ inp, agentParse (cfg.llm (k - 1) p cfg.stop_pattern) = .ok (t, inp) ∧
      ¬ t = FINAL_ANSWER_TAG)
    (htool : tool_by_names cfg.tools t = none) :
    ∀ (fuel nl : Nat) (prevs : List Str) (thinking : List ThinkingStep),
      nl + 1 ≤ k → k ≤ nl + fuel →
      ∃ tr, runLoop cfg prompt fuel nl prevs thinking = .failure (.unknownTool t) tr ∧
        tr.length = thinking.length + (k - 1 - nl) := by
  intro fuel
  induction fuel with
  | zero =>
    intro nl prevs thinking h1 h2
    omega
  | succ f ih =>
    intro nl prevs thinking h1 h2
    obtain ⟨curr, hcur⟩ := Option.isSome_iff_exists.mp (hfmt prevs)
    by_cases hk : nl + 1 = k
    · have hnl : nl = k - 1 := by omega
      obtain ⟨inp, hp, hnf⟩ := hbad curr
      rw [← hnl] at hp
      exact ⟨thinking,
        runLoop_step_unknown cfg prompt f nl prevs thinking curr t inp hcur hp hnf htool,
        by omega⟩
    · have hlt : nl + 1 < k := by omega
      obtain ⟨t', inp, tl, hp, hnf, htl⟩ := hpre nl curr hlt
      obtain ⟨tr, hrec, hlen⟩ := ih (nl + 1)
        (prevs ++ [cfg.llm nl curr cfg.stop_pattern ++ '\n' ::
          (OBSERVATION_TOKEN ++ ' ' :: (tl.use inp ++ '\n' :: THOUGHT_TOKEN))])
        (thinking ++ [⟨nl + 1, cfg.llm nl curr cfg.stop_pattern, t', inp, none, some (tl.use inp)⟩])
        (by omega) (by omega)
      refine ⟨tr, ?_, ?_⟩
      · rw [runLoop_step_cont cfg prompt f nl prevs thinking curr t' inp tl hcur hp hnf htl]
        exact hrec
      · simp at hlen
        omega

/-- C4: a parsed tool invocation whose name has no catalog entry makes the
run fail with the `UnknownTool` error carrying that name; the failure
propagates to the caller and no further iteration runs. -/
theorem run_unknown_tool_fatal (cfg : AgentCfg) (question : Str) (n k : Nat) (t : Str)
    (hk : 1 ≤ k) (hkn : k ≤ n)
    (hfmt0 : (pyFormat cfg.prompt_template (initialEnv cfg question)).isSome = true)
    (hfmt : ∀ prompt, pyFormat cfg.prompt_template (initialEnv cfg question) = some prompt →
      ∀ prevs, (pyFormat prompt (loopEnv prevs)).isSome = true)
    (hpre : ∀ i p, i + 1 < k → ∃ t' inp tl,
      agentParse (cfg.llm i p cfg.stop_pattern) = .ok (t', inp) ∧
      ¬ t' = FINAL_ANSWER_TAG ∧ tool_by_names cfg.tools t' = some tl)
    (hbad : ∀ p, ∃ inp, agentParse (cfg.llm (k - 1) p cfg.stop_pattern) = .ok (t, inp) ∧
      ¬ t = FINAL_ANSWER_TAG)
    (htool : tool_by_names cfg.tools t = none) :
    ∃ tr, Agent.run cfg question (some n) = .failure (.unknownTool t) tr := by
  obtain ⟨prompt, hprompt⟩ := Option.isSome_iff_exists.mp hfmt0
  have hfmtP := hfmt prompt hprompt
  obtain ⟨p0, hp0⟩ := Option.isSome_iff_exists.mp (hfmtP [])
  obtain ⟨tr, hrun, _⟩ :=
    runLoop_unknown_at cfg prompt k t hfmtP hpre hbad htool n 0 [] [] (by omega) (by omega)
  refine ⟨tr, ?_⟩
  unfold Agent.run
  rw [hprompt]
  simp only []
  rw [hp0]
  exact hrun

/-- C4 witness: the second call names the unknown tool `Nope`; the run
fails with `UnknownTool "Nope"`. -/
theorem run_unknown_tool_fatal_wit :
    ∃ tr, Agent.run demoCfgUnknown "Q".data (some 3) =
      .failure (.unknownTool "Nope".data) tr := by
  apply run_unknown_tool_fatal demoCfgUnknown "Q".data 3 2 "Nope".data (by omega) (by omega)
  · rfl
  · intro prompt hprompt prevs
    have hpr : prompt = "{previous_responses}".data := by
      have h0 : pyFormat demoCfgUnknown.prompt_template (initialEnv demoCfgUnknown "Q".data) =
          some "{previous_responses}".data := by rfl
      rw [h0] at hprompt
      exact (Option.some.inj hprompt).symm
    subst hpr
    rfl
  · intro i p hi
    have hi0 : i = 0 := by omega
    subst hi0
    exact ⟨"T".data, "q".data, demoTool, rfl, by decide, rfl⟩
  · intro p
    exact ⟨"q".data, rfl, by decide⟩
  · rfl

/-- C10: when the run fails with `UnknownTool` at iteration `k`, the
recorded thinking holds exactly the `k - 1` previously completed step
records; the failing iteration's partially built record is not appended. -/
theorem run_unknown_tool_trace (cfg : AgentCfg) (question : Str) (n k : Nat) (t : Str)
    (hk : 1 ≤ k) (hkn : k ≤ n)
    (hfmt0 : (pyFormat cfg.prompt_template (initialEnv cfg question)).isSome = true)
    (hfmt : ∀ prompt, pyFormat cfg.prompt_template (initialEnv cfg question) = some prompt →
      ∀ prevs, (pyFormat prompt (loopEnv prevs)).isSome = true)
    (hpre : ∀ i p, i + 1 < k → ∃ t' inp tl,
      agentParse (cfg.llm i p cfg.stop_pattern) = .ok (t', inp) ∧
      ¬ t' = FINAL_ANSWER_TAG ∧ tool_by_names cfg.tools t' = some tl)
    (hbad : ∀ p, ∃ inp, agentParse (cfg.llm (k - 1) p cfg.stop_pattern) = .ok (t, inp) ∧
      ¬ t = FINAL_ANSWER_TAG)
    (htool : tool_by_names cfg.tools t = none) :
    ∃ tr, Agent.run cfg question (some n) = .failure (.unknownTool t) tr ∧
      tr.length = k - 1 := by
  obtain ⟨prompt, hprompt⟩ := Option.isSome_iff_exists.mp hfmt0
  have hfmtP := hfmt prompt hprompt
  obtain ⟨p0, hp0⟩ := Option.isSome_iff_exists.mp (hfmtP [])
  obtain ⟨tr, hrun, hlen⟩ :=
    runLoop_unknown_at cfg prompt k t hfmtP hpre hbad htool n 0 [] [] (by omega) (by omega)
  refine ⟨tr, ?_, by simpa using hlen⟩
  unfold Agent.run
  rw [hprompt]
  simp only []
  rw [hp0]
  exact hrun

/-- C10 witness: unknown tool at iteration 2 leaves exactly the one
completed step inspectable. -/
theorem run_unknown_tool_trace_wit :
    ∃ tr, Agent.run demoCfgUnknown "Q2".data (some 3) =
      .failure (.unknownTool "Nope".data) tr ∧ tr.length = 1 := by
  have h := run_unknown_tool_trace demoCfgUnknown "Q2".data 3 2 "Nope".data (by omega) (by omega)
    (by rfl)
    (fun prompt hprompt prevs => by
      have hpr : prompt = "{previous_responses}".data := by
        have h0 : pyFormat demoCfgUnknown.prompt_template
            (initialEnv demoCfgUnknown "Q2".data) = some "{previous_responses}".data := by rfl
        rw [h0] at hprompt
        exact (Option.some.inj hprompt).symm
      subst hpr
      rfl)
    (fun i p hi => by
      have hi0 : i = 0 := by omega
      subst hi0
      exact ⟨"T".data, "q".data, demoTool, rfl, by decide, rfl⟩)
    (fun p => ⟨"q".data, rfl, by decide⟩)
    (by rfl)
  simpa using h

/-! ### C8: the synchronous and suspending runs agree -/

theorem tool_by_names_mem (tools : List Tool) (n : Str) (tl : Tool)
    (h : tool_by_names tools n = some tl) : tl ∈ tools := by
  unfold tool_by_names at h
  exact List.mem_reverse.mp (List.mem_of_find?_eq_some h)

/-- The two loop bodies are copies; when the suspending capabilities agree
with the blocking ones, the loops agree on every state. -/
theorem runLoopAsync_eq_runLoop (cfg : AgentCfg)
    (hllm : ∀ i p st, cfg.llm_async i p st = cfg.llm i p st)
    (htools : ∀ t, t ∈ cfg.tools → ∀ x, t.use_async x = t.use x) (prompt : Str) :
    ∀ (fuel nl : Nat) (prevs : List Str) (thinking : List ThinkingStep),
      runLoopAsync cfg prompt fuel nl prevs thinking =
        runLoop cfg prompt fuel nl prevs thinking := by
  intro fuel
  induction fuel with
  | zero =>
    intro nl prevs thinking
    rfl
  | succ f ih =>
    intro nl prevs thinking
    cases hcur : pyFormat prompt (loopEnv prevs) with
    | none => simp only [runLoopAsync, runLoop, hcur]
    | some curr =>
      cases hp : agentParse (cfg.llm nl curr cfg.stop_pattern) with
      | error raw => simp only [runLoopAsync, runLoop, hcur, hllm, hp]
      | ok pr =>
        obtain ⟨t, inp⟩ := pr
        by_cases hnf : t = FINAL_ANSWER_TAG
        · subst hnf
          simp only [runLoopAsync, runLoop, hcur, hllm, hp, eq_self_iff_true, if_true]
        · cases htl : tool_by_names cfg.tools t with
          | none => simp only [runLoopAsync, runLoop, hcur, hllm, hp, if_neg hnf, htl]
          | some tl =>
            have huse := htools tl (tool_by_names_mem cfg.tools t tl htl)
            simp only [runLoopAsync, runLoop, hcur, hllm, hp, if_neg hnf, htl, huse, ih]

/-- C8: when the suspending model and tool capabilities agree with the
blocking ones, `run_async` and `run` return the same answer and the same
trace for every question and iteration budget — the decision, parsing and
transition logic of the two modes is identical. -/
theorem run_async_equiv (cfg : AgentCfg)
    (hllm : ∀ i p st, cfg.llm_async i p st = cfg.llm i p st)
    (htools : ∀ t, t ∈ cfg.tools → ∀ x, t.use_async x = t.use x)
    (question : Str) (m : Option Nat) :
    Agent.runAsync cfg question m = Agent.run cfg question m := by
  unfold Agent.run Agent.runAsync
  cases h1 : pyFormat cfg.prompt_template (initialEnv cfg question) with
  | none => rfl
  | some prompt =>
    simp only []
    cases h2 : pyFormat prompt (loopEnv []) with
    | none => rfl
    | some p0 => exact runLoopAsync_eq_runLoop cfg hllm htools prompt _ 0 [] []

/-- C8 witness: on the demo configuration (whose suspending capabilities
are the blocking ones) the two runs coincide. -/
theorem run_async_equiv_wit :
    Agent.runAsync demoCfg "Q".data (some 2) = Agent.run demoCfg "Q".data (some 2) :=
  run_async_equiv demoCfg (fun _ _ _ => rfl)
    (fun t ht x => by
      rcases List.mem_singleton.mp ht with rfl
      rfl)
    "Q".data (some 2)

/-! ### C9: prompt rendering is not total -/

/-- C9: because the template is formatted in two stages, values substituted
in the first stage are re-scanned by the second: a question containing a
literal `}` — and likewise a tool description containing `{` — makes the
run fail with a formatting error before any iteration instead of producing
a prompt.  Tool observations, by contrast, enter only as second-stage
replacement values and are spliced verbatim: whatever transcript entries
(hence observations) accumulate, the re-render of the demo prompt stays
total, and a run whose tool returns `}` terminates normally. -/
theorem run_brace_question_fmt_error :
    (∃ q : Str, '\x7d' ∈ q ∧ Agent.run demoCfgTemplate q none = .failure .fmt []) ∧
    ('\x7b' ∈ tool_description demoCfgBraceDesc.tools ∧
      Agent.run demoCfgBraceDesc "Q".data none = .failure .fmt []) ∧
    (∀ prevs, (pyFormat demoRenderedPrompt (loopEnv prevs)).isSome = true) ∧
    (demoToolBraceObs.use "q".data = "\x7d".data ∧
      Agent.run demoCfgBraceObs "Q".data (some 2) = .answer FALLBACK_ANSWER
        [⟨1, demoToolCall, "T".data, "q".data, none, some "\x7d".data⟩,
         ⟨2, demoToolCall, "T".data, "q".data, none, some "\x7d".data⟩]) := by
  refine ⟨⟨"\x7d".data, by decide, ?_⟩, ⟨by decide, ?_⟩, fun prevs => ?_, ⟨rfl, ?_⟩⟩
  · rfl
  · rfl
  · rfl
  · rfl

/-! ### Unfolding equations for the format scanner -/

theorem pyFormatF_nil (env : Str → Option Str) (fuel : Nat) :
    pyFormatF env fuel [] = some [] := by
  cases fuel <;> rfl

theorem hasFieldF_nil (name : Str) (fuel : Nat) : hasFieldF name fuel [] = false := by
  cases fuel <;> rfl

theorem pyFormatF_open_open (env : Str → Option Str) (fuel : Nat) (rest2 : Str) :
    pyFormatF env (fuel + 1) ('{' :: '{' :: rest2) =
      (pyFormatF env fuel rest2).map (fun o => '{' :: o) := rfl

theorem hasFieldF_open_open (name : Str) (fuel : Nat) (rest2 : Str) :
    hasFieldF name (fuel + 1) ('{' :: '{' :: rest2) = hasFieldF name fuel rest2 := rfl

theorem pyFormatF_field_some (env : Str → Option Str) (fuel : Nat) (rest rest2 v' : Str)
    (h1 : ∀ r, rest ≠ '{' :: r)
    (hdrop : rest.dropWhile (fun d => d ≠ '}') = '}' :: rest2)
    (henv : env (rest.takeWhile (fun d => d ≠ '}')) = some v') :
    pyFormatF env (fuel + 1) ('{' :: rest) =
      (pyFormatF env fuel rest2).map (fun o => v' ++ o) := by
  simp only [pyFormatF]
  rw [if_pos trivial, hdrop]
  show (match env (rest.takeWhile (fun d => d ≠ '}')) with
    | some v => (pyFormatF env fuel rest2).map (fun o => v ++ o)
    | none => none) = (pyFormatF env fuel rest2).map (fun o => v' ++ o)
  rw [henv]

theorem pyFormatF_field_none (env : Str → Option Str) (fuel : Nat) (rest rest2 : Str)
    (h1 : ∀ r, rest ≠ '{' :: r)
    (hdrop : rest.dropWhile (fun d => d ≠ '}') = '}' :: rest2)
    (henv : env (rest.takeWhile (fun d => d ≠ '}')) = none) :
    pyFormatF env (fuel + 1) ('{' :: rest) = none := by
  simp only [pyFormatF]
  rw [if_pos trivial, hdrop]
  show (match env (rest.takeWhile (fun d => d ≠ '}')) with
    | some v => (pyFormatF env fuel rest2).map (fun o => v ++ o)
    | none => none) = none
  rw [henv]

theorem pyFormatF_field_bad (env : Str → Option Str) (fuel : Nat) (rest : Str)
    (h1 : ∀ r, rest ≠ '{' :: r)
    (h2 : ∀ r, rest.dropWhile (fun d => d ≠ '}') ≠ '}' :: r) :
    pyFormatF env (fuel + 1) ('{' :: rest) = none := by
  simp only [pyFormatF]
  rw [if_pos trivial]

theorem hasFieldF_field (name : Str) (fuel : Nat) (rest rest2 : Str)
    (h1 : ∀ r, rest ≠ '{' :: r)
    (hdrop : rest.dropWhile (fun d => d ≠ '}') = '}' :: rest2) :
    hasFieldF name (fuel + 1) ('{' :: rest) =
      ((rest.takeWhile (fun d => d ≠ '}') == name) || hasFieldF name fuel rest2) := by
  simp only [hasFieldF]
  rw [if_pos trivial, hdrop]
  exact rfl

theorem hasFieldF_field_bad (name : Str) (fuel : Nat) (rest : Str)
    (h1 : ∀ r, rest ≠ '{' :: r)
    (h2 : ∀ r, rest.dropWhile (fun d => d ≠ '}') ≠ '}' :: r) :
    hasFieldF name (fuel + 1) ('{' :: rest) = false := by
  simp only [hasFieldF]
  rw [if_pos trivial]

theorem pyFormatF_close_close (env : Str → Option Str) (fuel : Nat) (rest2 : Str) :
    pyFormatF env (fuel + 1) ('}' :: '}' :: rest2) =
      (pyFormatF env fuel rest2).map (fun o => '}' :: o) := rfl

theorem hasFieldF_close_close (name : Str) (fuel : Nat) (rest2 : Str) :
    hasFieldF name (fuel + 1) ('}' :: '}' :: rest2) = hasFieldF name fuel rest2 := rfl

theorem pyFormatF_close_bad (env : Str → Option Str) (fuel : Nat) (rest : Str)
    (h : ∀ r, rest ≠ '}' :: r) :
    pyFormatF env (fuel + 1) ('}' :: rest) = none := by
  simp only [pyFormatF]
  rw [if_neg (by decide : ¬ ('}' : Char) = '{'), if_pos trivial]

theorem hasFieldF_close_bad (name : Str) (fuel : Nat) (rest : Str)
    (h : ∀ r, rest ≠ '}' :: r) :
    hasFieldF name (fuel + 1) ('}' :: rest) = false := by
  simp only [hasFieldF]
  rw [if_neg (by decide : ¬ ('}' : Char) = '{'), if_pos trivial]

theorem pyFormatF_char (env : Str → Option Str) (fuel : Nat) (c : Char) (rest : Str)
    (hc1 : ¬ c = '{') (hc2 : ¬ c = '}') :
    pyFormatF env (fuel + 1) (c :: rest) =
      (pyFormatF env fuel rest).map (fun o => c :: o) := by
  simp only [pyFormatF, if_neg hc1, if_neg hc2]

theorem hasFieldF_char (name : Str) (fuel : Nat) (c : Char) (rest : Str)
    (hc1 : ¬ c = '{') (hc2 : ¬ c = '}') :
    hasFieldF name (fuel + 1) (c :: rest) = hasFieldF name fuel rest := by
  simp only [hasFieldF, if_neg hc1, if_neg hc2]

/-- `str.format` splices the value of a present field verbatim into its
output: if `{name}` occurs in `p` and formatting succeeds, the output
contains `env name` as a contiguous substring. -/
theorem pyFormatF_splice (env : Str → Option Str) (name v : Str) (hv : env name = some v) :
    ∀ (fuel : Nat) (p : Str), ∀ out, hasFieldF name fuel p = true →
      pyFormatF env fuel p = some out → ∃ x y, out = x ++ v ++ y := by
  intro fuel p
  induction fuel, p using pyFormatF.induct env with
  | case1 t =>
    intro out hF _
    rw [hasFieldF_nil] at hF
    simp at hF
  | case2 head tail =>
    intro out hF _
    simp [hasFieldF] at hF
  | case3 fuel rest2 ih =>
    intro out hF hPF
    rw [hasFieldF_open_open] at hF
    rw [pyFormatF_open_open] at hPF
    cases ho : pyFormatF env fuel rest2 with
    | none => rw [ho] at hPF; simp at hPF
    | some out2 =>
      rw [ho] at hPF
      simp only [Option.map_some', Option.some.injEq] at hPF
      obtain ⟨x, y, hxy⟩ := ih out2 hF ho
      exact ⟨'{' :: x, y, by rw [← hPF, hxy]; rfl⟩
  | case4 fuel rest rest2 hdrop rest_1 henv hnotlb ih =>
    intro out hF hPF
    rw [hasFieldF_field name fuel rest rest2 (fun r => hnotlb r) hdrop] at hF
    rw [pyFormatF_field_some env fuel rest rest2 rest_1 (fun r => hnotlb r) hdrop henv] at hPF
    cases ho : pyFormatF env fuel rest2 with
    | none => rw [ho] at hPF; simp at hPF
    | some out2 =>
      rw [ho] at hPF
      simp only [Option.map_some', Option.some.injEq] at hPF
      rw [Bool.or_eq_true] at hF
      rcases hF with hname | hF2
      · have ht : rest.takeWhile (fun d => d ≠ '}') = name := eq_of_beq hname
        rw [ht, hv] at henv
        refine ⟨[], out2, ?_⟩
        rw [← hPF, ← Option.some.inj henv]
        rfl
      · obtain ⟨x, y, hxy⟩ := ih out2 hF2 ho
        exact ⟨rest_1 ++ x, y, by rw [← hPF, hxy]; simp⟩
  | case5 fuel rest rest2 hdrop henv hnotlb =>
    intro out hF hPF
    rw [pyFormatF_field_none env fuel rest rest2 (fun r => hnotlb r) hdrop henv] at hPF
    simp at hPF
  | case6 fuel rest hnotlb hnotdrop =>
    intro out hF hPF
    rw [hasFieldF_field_bad name fuel rest (fun r => hnotlb r) (fun r => hnotdrop r)] at hF
    simp at hF
  | case7 fuel rest2 hne ih =>
    intro out hF hPF
    rw [hasFieldF_close_close] at hF
    rw [pyFormatF_close_close] at hPF
    cases ho : pyFormatF env fuel rest2 with
    | none => rw [ho] at hPF; simp at hPF
    | some out2 =>
      rw [ho] at hPF
      simp only [Option.map_some', Option.some.injEq] at hPF
      obtain ⟨x, y, hxy⟩ := ih out2 hF ho
      exact ⟨'}' :: x, y, by rw [← hPF, hxy]; rfl⟩
  | case8 fuel rest hnot hne =>
    intro out hF hPF
    rw [pyFormatF_close_bad env fuel rest (fun r => hnot r)] at hPF
    simp at hPF
  | case9 fuel c rest hc1 hc2 ih =>
    intro out hF hPF
    rw [hasFieldF_char name fuel c rest hc1 hc2] at hF
    rw [pyFormatF_char env fuel c rest hc1 hc2] at hPF
    cases ho : pyFormatF env fuel rest with
    | none => rw [ho] at hPF; simp at hPF
    | some out2 =>
      rw [ho] at hPF
      simp only [Option.map_some', Option.some.injEq] at hPF
      obtain ⟨x, y, hxy⟩ := ih out2 hF ho
      exact ⟨c :: x, y, by rw [← hPF, hxy]; rfl⟩

/-- Joining a list ending in `e` yields a string ending in `e`. -/
theorem joinSep_snoc (sep : Str) : ∀ (l : List Str) (e : Str),
    ∃ x, joinSep sep (l ++ [e]) = x ++ e := by
  intro l
  induction l with
  | nil =>
    intro e
    exact ⟨[], rfl⟩
  | cons a l' ih =>
    intro e
    obtain ⟨x, hx⟩ := ih e
    cases hl : l' ++ [e] with
    | nil => exact absurd hl (by simp)
    | cons y rest =>
      refine ⟨a ++ sep ++ x, ?_⟩
      show joinSep sep (a :: (l' ++ [e])) = a ++ sep ++ x ++ e
      rw [hl]
      show a ++ sep ++ joinSep sep (y :: rest) = a ++ sep ++ x ++ e
      rw [← hl, hx]
      simp [List.append_assoc]

/-- C7: in a non-terminal iteration the transcript entry appended is
exactly the raw output, a newline, the literal `Observation:`, one space,
the tool result, a newline and the literal `Thought:`; and whenever the
next prompt is rendered from the extended transcript (the template holding
the `previous_responses` field), that entry reappears in it verbatim. -/
theorem transcript_entry_roundtrip (cfg : AgentCfg) (prompt : Str) (f nl : Nat)
    (prevs : List Str) (thinking : List ThinkingStep) (curr t inp : Str) (tl : Tool)
    (hcur : pyFormat prompt (loopEnv prevs) = some curr)
    (hp : agentParse (cfg.llm nl curr cfg.stop_pattern) = .ok (t, inp))
    (hnf : ¬ t = FINAL_ANSWER_TAG)
    (htool : tool_by_names cfg.tools t = some tl) :
    runLoop cfg prompt (f + 1) nl prevs thinking =
      runLoop cfg prompt f (nl + 1)
        (prevs ++ [cfg.llm nl curr cfg.stop_pattern ++ '\n' ::
          (OBSERVATION_TOKEN ++ ' ' :: (tl.use inp ++ '\n' :: THOUGHT_TOKEN))])
        (thinking ++ [⟨nl + 1, cfg.llm nl curr cfg.stop_pattern, t, inp, none,
          some (tl.use inp)⟩]) ∧
    (∀ curr2, hasField "previous_responses".data prompt = true →
      pyFormat prompt (loopEnv (prevs ++ [cfg.llm nl curr cfg.stop_pattern ++ '\n' ::
        (OBSERVATION_TOKEN ++ ' ' :: (tl.use inp ++ '\n' :: THOUGHT_TOKEN))])) = some curr2 →
      containsTok (cfg.llm nl curr cfg.stop_pattern ++ '\n' ::
        (OBSERVATION_TOKEN ++ ' ' :: (tl.use inp ++ '\n' :: THOUGHT_TOKEN))) curr2 = true) := by
  constructor
  · exact runLoop_step_cont cfg prompt f nl prevs thinking curr t inp tl hcur hp hnf htool
  · intro curr2 hfield hfmt2
    obtain ⟨x, y, hxy⟩ := pyFormatF_splice
      (loopEnv (prevs ++ [cfg.llm nl curr cfg.stop_pattern ++ '\n' ::
        (OBSERVATION_TOKEN ++ ' ' :: (tl.use inp ++ '\n' :: THOUGHT_TOKEN))]))
      "previous_responses".data
      (joinSep "\n".data (prevs ++ [cfg.llm nl curr cfg.stop_pattern ++ '\n' ::
        (OBSERVATION_TOKEN ++ ' ' :: (tl.use inp ++ '\n' :: THOUGHT_TOKEN))]))
      (by rfl) prompt.length prompt curr2 hfield hfmt2
    obtain ⟨x2, hx2⟩ := joinSep_snoc "\n".data prevs
      (cfg.llm nl curr cfg.stop_pattern ++ '\n' ::
        (OBSERVATION_TOKEN ++ ' ' :: (tl.use inp ++ '\n' :: THOUGHT_TOKEN)))
    rw [hxy, hx2]
    have hassoc : x ++ (x2 ++ (cfg.llm nl curr cfg.stop_pattern ++ '\n' ::
        (OBSERVATION_TOKEN ++ ' ' :: (tl.use inp ++ '\n' :: THOUGHT_TOKEN)))) ++ y =
        (x ++ x2) ++ (cfg.llm nl curr cfg.stop_pattern ++ '\n' ::
        (OBSERVATION_TOKEN ++ ' ' :: (tl.use inp ++ '\n' :: THOUGHT_TOKEN))) ++ y := by
      simp [List.append_assoc]
    rw [hassoc]
    exact containsTok_of_decomp _ _ _

/-- C7 witness: one concrete non-terminal iteration appends exactly the
`raw ++ "\nObservation: r\nThought:"` entry, and the re-rendered prompt
contains it verbatim. -/
theorem transcript_entry_roundtrip_wit :
    runLoop demoCfg "{previous_responses}".data 1 0 [] [] =
      runLoop demoCfg "{previous_responses}".data 0 1
        ["Thought: t\nAction: T\nAction Input: q\nObservation: r\nThought:".data]
        [⟨1, demoToolCall, "T".data, "q".data, none, some "r".data⟩] ∧
    containsTok "Thought: t\nAction: T\nAction Input: q\nObservation: r\nThought:".data
      "Thought: t\nAction: T\nAction Input: q\nObservation: r\nThought:".data = true := by
  have h := transcript_entry_roundtrip demoCfg "{previous_responses}".data 0 0 [] []
    [] "T".data "q".data demoTool rfl rfl (by decide) rfl
  exact ⟨h.1,
    h.2 "Thought: t\nAction: T\nAction Input: q\nObservation: r\nThought:".data
      (by decide) (by rfl)⟩

end AgentModel
